import Mathlib

/-!
Verification of the environment-store hierarchy engine.

This file gives a shallow embedding of the core of the repository:

* `schemas.Variable` (pydantic model with string `name` and `value`),
* the JSON tree persisted by `JsonFileAdapter` (a nested mapping in which
  a key whose value is a string is a variable and a key whose value is a
  mapping is a child hierarchy node),
* the adapter operations `set_variable`, `get_variable`, `get_variables`,
  `delete_variable`, and the enumeration methods,
* the manager's merge engine `overwrite_hierarchy_variables` and the
  effective-variable methods `get_organisation_variables`,
  `get_project_variables`, `get_environment_variables`,
  `get_service_variables`,
* the `validate_hierarchy` decorator.

Python dictionaries are modelled as insertion-ordered association lists;
Python exceptions are modelled with `Except` over an error value carrying
the exception class and message.  Fallible attribute accesses of the
source (calling `.get`/`.setdefault`/`.items` on a string, reading `.name`
on a list, constructing a pydantic `Variable` whose value is a mapping)
are modelled faithfully as errors.
-/

set_option maxHeartbeats 1000000

namespace EnvStore

/-- `schemas.Variable`: a pydantic model with string fields `name` and `value`. -/
structure Variable where
  name : String
  value : String
deriving DecidableEq, Repr

/-- The Python exception classes raised by the embedded code. -/
inductive PyErrClass where
  | typeError
  | valueError
  | attributeError
  | validationError
deriving DecidableEq, Repr

/-- A raised Python exception: its class and its message. -/
structure PyErr where
  cls : PyErrClass
  msg : String
deriving DecidableEq, Repr

/-- A JSON value of the persisted tree: a plain string (a variable value)
or a nested object (a child hierarchy node). -/
inductive JVal where
  | str (s : String)
  | obj (entries : List (String × JVal))

/-- A JSON object, modelled as an insertion-ordered association list,
mirroring a Python `dict`. -/
abbrev JObj := List (String × JVal)

/-- `d.get(k)` / `d[k]` lookup on a Python dict. -/
def dlookup : JObj → String → Option JVal
  | [], _ => none
  | (k2, v) :: rest, k => if k2 = k then some v else dlookup rest k

/-- `k in d` membership test on a Python dict. -/
def dcontains (d : JObj) (k : String) : Bool :=
  (dlookup d k).isSome

/-- `d[k] = v` assignment on a Python dict: update in place if the key
exists, append otherwise (insertion order preserved). -/
def dset (d : JObj) (k : String) (v : JVal) : JObj :=
  if dcontains d k then d.map (fun p => if p.1 = k then (p.1, v) else p)
  else d ++ [(k, v)]

/-- `del d[k]` on a Python dict (keys are unique in a Python dict, so at
most one entry matches). -/
def dremove : JObj → String → JObj
  | [], _ => []
  | p :: rest, k => if p.1 = k then dremove rest k else p :: dremove rest k

/-- `needle in hay` for Python strings (substring test), used by the
membership check of `delete_variable` when the receiver is a string. -/
def listInfix : List Char → List Char → Bool
  | nd, [] => nd.isEmpty
  | nd, c :: t => nd.isPrefixOf (c :: t) || listInfix nd t

/-- Substring test on strings, Python `needle in hay`. -/
def strContains (hay needle : String) : Bool :=
  listInfix needle.data hay.data

/-- A valid hierarchy locator: one of the five depths accepted by
`validate_hierarchy` (all-null is the root; deeper levels require every
ancestor). -/
inductive Loc where
  | root
  | org (o : String)
  | proj (o p : String)
  | env (o p e : String)
  | svc (o p e s : String)
deriving DecidableEq, Repr

/-- The key path of a locator in the persisted tree. -/
def Loc.path : Loc → List String
  | .root => []
  | .org o => [o]
  | .proj o p => [o, p]
  | .env o p e => [o, p, e]
  | .svc o p e s => [o, p, e, s]

/-- The `setdefault` chain of `JsonFileAdapter.set_variable`:
`data.setdefault(k1, {}).setdefault(k2, {})...[name] = value`.
If an intermediate key holds a string, `setdefault`/item assignment is
invoked on a `str` and raises. -/
def setChain (d : JObj) : List String → String → String → Except PyErr JObj
  | [], n, v => .ok (dset d n (.str v))
  | k :: ks, n, v =>
    match dlookup d k with
    | none =>
      match setChain [] ks n v with
      | .ok c => .ok (dset d k (.obj c))
      | .error e => .error e
    | some (.obj c) =>
      match setChain c ks n v with
      | .ok c2 => .ok (dset d k (.obj c2))
      | .error e => .error e
    | some (.str _) =>
      if ks.isEmpty then .error ⟨.typeError, "str object does not support item assignment"⟩
      else .error ⟨.attributeError, "str object has no attribute setdefault"⟩

/-- The `get` chain of `JsonFileAdapter.get_variable`:
`data.get(k1, {}).get(k2, {})....get(name)`.  A missing intermediate key
defaults to `{}`; a string intermediate makes the next `.get` raise
`AttributeError`. -/
def getChain (d : JObj) : List String → String → Except PyErr (Option JVal)
  | [], n => .ok (dlookup d n)
  | k :: ks, n =>
    match dlookup d k with
    | none => getChain [] ks n
    | some (.obj c) => getChain c ks n
    | some (.str _) => .error ⟨.attributeError, "str object has no attribute get"⟩

/-- The list comprehension of `JsonFileAdapter.get_variables`:
`[Variable(name=n, value=v) for n, v in node.items()]`.  Constructing a
pydantic `Variable` whose value is a mapping (a child hierarchy node)
raises a `ValidationError` because `value` must be a string. -/
def toVariables : JObj → Except PyErr (List Variable)
  | [] => .ok []
  | (n, .str v) :: rest =>
    match toVariables rest with
    | .ok vs => .ok (⟨n, v⟩ :: vs)
    | .error e => .error e
  | (_, .obj _) :: _ => .error ⟨.validationError, "value must be a string"⟩

/-- The `get` chain of `JsonFileAdapter.get_variables` followed by the
`Variable` comprehension at the final node. -/
def varsChain (d : JObj) : List String → Except PyErr (List Variable)
  | [] => toVariables d
  | k :: ks =>
    match dlookup d k with
    | none => varsChain [] ks
    | some (.obj c) => varsChain c ks
    | some (.str _) => .error ⟨.attributeError, "str object has no attribute get"⟩

/-- The membership-then-delete logic of `JsonFileAdapter.delete_variable`:
`if name in data.get(k1, {})....: del data[k1]...[name]; return True`, else
`return False`.  A missing intermediate key defaults to `{}` so the
membership test is false; a string receiver makes `.get` raise
`AttributeError` (or, at the final position, turns the membership test
into a substring test followed by a `TypeError` on `del`). -/
def delChain (d : JObj) : List String → String → Except PyErr (Bool × JObj)
  | [], n =>
    if dcontains d n then .ok (true, dremove d n) else .ok (false, d)
  | k :: ks, n =>
    match dlookup d k with
    | none => .ok (false, d)
    | some (.obj c) =>
      match delChain c ks n with
      | .ok (true, c2) => .ok (true, dset d k (.obj c2))
      | .ok (false, _) => .ok (false, d)
      | .error e => .error e
    | some (.str s) =>
      if ks.isEmpty then
        if strContains s n then .error ⟨.typeError, "str object does not support item deletion"⟩
        else .ok (false, d)
      else .error ⟨.attributeError, "str object has no attribute get"⟩

/-- `JsonFileAdapter.set_variable`, dispatching on the (validated) locator
shape exactly as the source's `if`/`elif` chain does. -/
def set_variable (d : JObj) (name value : String) (l : Loc) : Except PyErr JObj :=
  setChain d l.path name value

/-- `JsonFileAdapter.get_variable`. -/
def get_variable (d : JObj) (name : String) (l : Loc) : Except PyErr (Option JVal) :=
  getChain d l.path name

/-- `JsonFileAdapter.get_variables`. -/
def get_variables (d : JObj) (l : Loc) : Except PyErr (List Variable) :=
  varsChain d l.path

/-- `JsonFileAdapter.delete_variable`; returns the boolean result plus the
resulting stored tree. -/
def delete_variable (d : JObj) (name : String) (l : Loc) : Except PyErr (Bool × JObj) :=
  delChain d l.path name

/-- `isinstance(v, dict)` on a JSON value. -/
def isObjVal : JVal → Bool
  | .str _ => false
  | .obj _ => true

/-- `[k for k, v in node.items() if isinstance(v, dict)]`. -/
def childKeys (d : JObj) : List String :=
  (d.filter (fun p => isObjVal p.2)).map Prod.fst

/-- The `get` chain of the enumeration methods followed by the
`isinstance(v, dict)` filter at the final node. -/
def childKeysChain (d : JObj) : List String → Except PyErr (List String)
  | [] => .ok (childKeys d)
  | k :: ks =>
    match dlookup d k with
    | none => childKeysChain [] ks
    | some (.obj c) => childKeysChain c ks
    | some (.str _) => .error ⟨.attributeError, "str object has no attribute get"⟩

/-- `JsonFileAdapter.get_organisations`. -/
def get_organisations (d : JObj) : List String :=
  childKeys d

/-- `JsonFileAdapter.get_projects`. -/
def get_projects (d : JObj) (organisation : String) : Except PyErr (List String) :=
  childKeysChain d [organisation]

/-- `JsonFileAdapter.get_environments`. -/
def get_environments (d : JObj) (organisation project : String) : Except PyErr (List String) :=
  childKeysChain d [organisation, project]

/-- `JsonFileAdapter.get_services`. -/
def get_services (d : JObj) (organisation project environment : String) : Except PyErr (List String) :=
  childKeysChain d [organisation, project, environment]

/-- A runtime element of the list passed to
`overwrite_hierarchy_variables`: the manager's effective-variable methods
construct `variables = []` and then `variables.append(self.get_variables())`,
so at runtime the first argument holds entire lists as single elements,
while direct callers pass `Variable` objects. -/
inductive Item where
  | var (v : Variable)
  | lst (l : List Variable)
deriving DecidableEq, Repr

/-- A Python dict keyed by variable name with `Variable` values. -/
abbrev VDict := List (String × Variable)

/-- `d[k] = v` on a name-keyed dict of variables. -/
def vinsert (d : VDict) (k : String) (v : Variable) : VDict :=
  if d.any (fun p => p.1 = k) then d.map (fun p => if p.1 = k then (p.1, v) else p)
  else d ++ [(k, v)]

/-- The dict comprehension `{variable.name: variable for variable in l}`:
iterates left to right (last write wins) and raises `AttributeError` if an
element is a list rather than a `Variable`. -/
def dictOfItems : List Item → VDict → Except PyErr VDict
  | [], acc => .ok acc
  | .var v :: rest, acc => dictOfItems rest (vinsert acc v.name v)
  | .lst _ :: _, _ => .error ⟨.attributeError, "list object has no attribute name"⟩

/-- Python `d1.update(d2)`: fold the entries of `d2` into `d1`. -/
def vupdate (d e : VDict) : VDict :=
  e.foldl (fun acc p => vinsert acc p.1 p.2) d

/-- `list(d.values())`. -/
def vvalues (d : VDict) : List Variable :=
  d.map Prod.snd

/-- Python string comparison on code points, lexicographic. -/
def strLeChars : List Char → List Char → Bool
  | [], _ => true
  | _ :: _, [] => false
  | a :: as, b :: bs =>
    if a.toNat < b.toNat then true
    else if b.toNat < a.toNat then false
    else strLeChars as bs

/-- `a <= b` on Python strings. -/
def pyStrLe (a b : String) : Bool :=
  strLeChars a.data b.data

/-- One step of a stable ascending sort by name: insert `v` after every
element whose name is less than or equal to `v`'s. -/
def insertSorted (v : Variable) : List Variable → List Variable
  | [] => [v]
  | w :: rest => if pyStrLe w.name v.name then w :: insertSorted v rest else v :: w :: rest

/-- `sorted(l, key=lambda x: x.name)`: Python's stable ascending sort by
variable name, realised as a stable insertion sort (stable sorting is a
unique specification, so any stable implementation computes the same
list). -/
def sortByName (l : List Variable) : List Variable :=
  l.foldl (fun acc v => insertSorted v acc) []

/-- `EnvironmentStoreManager.overwrite_hierarchy_variables`.  `none`
models a Python `None` argument.  Checks `overwrite_variables` for `None`
first, then `variables`; builds `overwrite_dict` before `variables_dict`;
with `overwrite_parent` it returns `variables_dict.update(overwrite_dict)`
values in insertion order, otherwise the values of
`overwrite_dict.update(variables_dict)` sorted by name. -/
def overwrite_hierarchy_variables (vars0 overwrite_variables : Option (List Item))
    (overwrite_parent : Bool) : Except PyErr (List Variable) :=
  match overwrite_variables with
  | none => .error ⟨.valueError, "overwrite_variables must be a list"⟩
  | some ovs =>
    match vars0 with
    | none => .error ⟨.valueError, "variables must be a list"⟩
    | some vs =>
      match dictOfItems ovs [] with
      | .error e => .error e
      | .ok overwrite_dict =>
        match dictOfItems vs [] with
        | .error e => .error e
        | .ok variables_dict =>
          if overwrite_parent then
            .ok (vvalues (vupdate variables_dict overwrite_dict))
          else
            .ok (sortByName (vvalues (vupdate overwrite_dict variables_dict)))

/-- `EnvironmentStoreManager.get_root_variables`. -/
def get_root_variables (d : JObj) : Except PyErr (List Variable) :=
  varsChain d []

/-- `EnvironmentStoreManager.get_organisation_variables`.  Note the
source's `variables.append(self.get_variables())`, which appends the
parent's variable list as a single element. -/
def get_organisation_variables (d : JObj) (organisation : String)
    (include_parent overwrite_parent : Bool) : Except PyErr (List Variable) := do
  let varItems : List Item ←
    if include_parent then do
      let parent ← varsChain d []
      pure [Item.lst parent]
    else pure []
  let own ← varsChain d [organisation]
  overwrite_hierarchy_variables (some varItems) (some (own.map Item.var)) overwrite_parent

/-- `EnvironmentStoreManager.get_project_variables`.  The recursive call
forwards `include_parent` but not `overwrite_parent` (which therefore
takes its default `True`), as in the source. -/
def get_project_variables (d : JObj) (organisation project : String)
    (include_parent overwrite_parent : Bool) : Except PyErr (List Variable) := do
  let varItems : List Item ←
    if include_parent then do
      let parent ← get_organisation_variables d organisation include_parent true
      pure [Item.lst parent]
    else pure []
  let own ← varsChain d [organisation, project]
  overwrite_hierarchy_variables (some varItems) (some (own.map Item.var)) overwrite_parent

/-- `EnvironmentStoreManager.get_environment_variables`. -/
def get_environment_variables (d : JObj) (organisation project environment : String)
    (include_parent overwrite_parent : Bool) : Except PyErr (List Variable) := do
  let varItems : List Item ←
    if include_parent then do
      let parent ← get_project_variables d organisation project include_parent true
      pure [Item.lst parent]
    else pure []
  let own ← varsChain d [organisation, project, environment]
  overwrite_hierarchy_variables (some varItems) (some (own.map Item.var)) overwrite_parent

/-- `EnvironmentStoreManager.get_service_variables`. -/
def get_service_variables (d : JObj) (organisation project environment service : String)
    (include_parent overwrite_parent : Bool) : Except PyErr (List Variable) := do
  let varItems : List Item ←
    if include_parent then do
      let parent ← get_environment_variables d organisation project environment include_parent true
      pure [Item.lst parent]
    else pure []
  let own ← varsChain d [organisation, project, environment, service]
  overwrite_hierarchy_variables (some varItems) (some (own.map Item.var)) overwrite_parent

/-- A Python runtime value passed as a locator field: a string or a
non-string (represented by an integer, enough to exercise the type
check). -/
inductive PyObj where
  | str (s : String)
  | int (n : Int)
deriving DecidableEq, Repr

/-- `type(value).__name__`. -/
def PyObj.typeName : PyObj → String
  | .str _ => "str"
  | .int _ => "int"

/-- `isinstance(value, str)`. -/
def PyObj.isStr : PyObj → Bool
  | .str _ => true
  | .int _ => false

/-- One iteration of the type-checking loop of `validate_hierarchy`. -/
def checkType (field : String) (value : Option PyObj) : Except PyErr Unit :=
  match value with
  | none => .ok ()
  | some v =>
    if v.isStr then .ok ()
    else .error ⟨.valueError, field ++ " must be a string, got " ++ v.typeName⟩

/-- `decorators.validate_hierarchy`: the type-checking loop over
(organisation, project, environment, service) in that order, then the
containment checks in child-to-parent order. -/
def validate_hierarchy (organisation project environment service : Option PyObj) :
    Except PyErr Unit := do
  checkType "organisation" organisation
  checkType "project" project
  checkType "environment" environment
  checkType "service" service
  if service.isSome && environment.isNone then
    .error ⟨.valueError, "service requires environment to be specified"⟩
  else if environment.isSome && project.isNone then
    .error ⟨.valueError, "environment requires project to be specified"⟩
  else if project.isSome && organisation.isNone then
    .error ⟨.valueError, "project requires organisation to be specified"⟩
  else
    .ok ()

/-- Extract the string from a validated locator field. -/
def pyStr : Option PyObj → Option String
  | some (.str s) => some s
  | _ => none

/-- The locator shape selected by the adapter's shared `if`/`elif` chain
over the four optional fields. -/
def dispatchLoc : Option String → Option String → Option String → Option String → Loc
  | some o, some p, some e, some s => .svc o p e s
  | some o, some p, some e, none => .env o p e
  | some o, some p, none, _ => .proj o p
  | some o, none, _, _ => .org o
  | none, _, _, _ => .root

/-- `EnvironmentStoreManager.set_variable`: the `validate_hierarchy`
decorator runs first, then the call is forwarded to the adapter. -/
def manager_set_variable (d : JObj) (name value : String)
    (organisation project environment service : Option PyObj) : Except PyErr JObj := do
  validate_hierarchy organisation project environment service
  set_variable d name value
    (dispatchLoc (pyStr organisation) (pyStr project) (pyStr environment) (pyStr service))

/-- Statement helper (not an embedding of source code): the node reached
by walking `P`, where a missing key denotes the empty mapping.  Used only
to state properties about trees whose walked path is free of string
collisions (`cleanPath`). -/
def nodeAt (d : JObj) : List String → JObj
  | [] => d
  | k :: ks =>
    match dlookup d k with
    | some (.obj c) => nodeAt c ks
    | _ => nodeAt [] ks

/-- Statement helper: the walk of `P` through `d` meets no string-valued
intermediate key (missing intermediate nodes are fine). -/
def cleanPath (d : JObj) : List String → Bool
  | [] => true
  | k :: ks =>
    match dlookup d k with
    | none => true
    | some (.obj c) => cleanPath c ks
    | some (.str _) => false

/-- Statement helper: a variable (a string-valued entry, as opposed to a
child hierarchy node) named `n` is stored directly at path `P`. -/
def isVarAt (d : JObj) (P : List String) (n : String) : Bool :=
  match dlookup (nodeAt d P) n with
  | some (.str _) => true
  | _ => false

/-- Statement helper: the first variable with the given name. -/
def findName (l : List Variable) (n : String) : Option Variable :=
  l.find? (fun w => w.name = n)

/-- Statement helper: some variable with the given name occurs in `l`. -/
def hasName (l : List Variable) (n : String) : Bool :=
  l.any (fun w => w.name = n)

/-- Statement helper: the single-chain tree produced by a `set` from the
empty store. -/
def mkChain : List String → String → String → JObj
  | [], n, v => [(n, .str v)]
  | k :: ks, n, v => [(k, .obj (mkChain ks n v))]

/-- Statement helper: the tree left by a successful delete along a clean
path (the exact-level entry removed when present, everything else
untouched). -/
def removeAt (d : JObj) : List String → String → JObj
  | [], n => if dcontains d n then dremove d n else d
  | k :: ks, n =>
    match dlookup d k with
    | some (.obj c) =>
      if dcontains (nodeAt c ks) n then dset d k (.obj (removeAt c ks n)) else d
    | _ => d

/-- Statement helper: the variable stored at path `Q` under name `m`, if
reading it succeeds and finds a string; `none` if it is absent, is a child
node, or the read raises. -/
def readVarStr (d : JObj) (Q : List String) (m : String) : Option String :=
  match getChain d Q m with
  | .ok (some (.str s)) => some s
  | _ => none

/-- Statement helper: the locator field passes the decorator's type check
(it is absent, or it is a string). -/
def fieldOk : Option PyObj → Bool
  | none => true
  | some v => v.isStr

/-- C1: the claim states that each effective-variables method with
`includeParents = true` returns the merge of the parent level's effective
set with the exact-level set.  The code instead appends the parent's
variable list as a single element of `variables`
(`variables.append(self.get_variables())`), so the merge's dict
comprehension reads `.name` on a `list` and raises `AttributeError` for
every store, at every depth — here evaluated on the empty store at
organisation and at service depth.  (The root case, effective(root) =
exact(root), does hold.)  The recursive calls also drop `overwrite_parent`.
This theorem evaluates the code at the failing input. -/
theorem C1_include_parent_always_raises :
    get_organisation_variables [] "A" true true
      = .error ⟨.attributeError, "list object has no attribute name"⟩
    ∧ get_service_variables [] "A" "B" "C" "D" true true
      = .error ⟨.attributeError, "list object has no attribute name"⟩
    ∧ get_root_variables [] = .ok [] :=
  ⟨rfl, rfl, rfl⟩

/-- C2: the claim states that `get_variables` returns the variables stored
directly at the level and an empty list — never an error — when the level
has none, including when the level holds child hierarchy nodes.  On the
store `{"A": {"B": {"x": "v"}}}` the organisation node "A" holds no
variable, only the child project node "B", yet `get_variables` constructs
`Variable(name="B", value={...})` and raises a pydantic `ValidationError`;
the same happens at the root.  At a node holding only variables the
enumeration does return exactly them.  This theorem evaluates the code at
the failing input. -/
theorem C2_get_variables_raises_on_child_nodes :
    get_variables [("A", .obj [("B", .obj [("x", .str "v")])])] (.org "A")
      = .error ⟨.validationError, "value must be a string"⟩
    ∧ get_variables [("A", .obj [("B", .obj [("x", .str "v")])])] .root
      = .error ⟨.validationError, "value must be a string"⟩
    ∧ get_variables [("A", .obj [("B", .obj [("x", .str "v")])])] (.proj "A" "B")
      = .ok [⟨"x", "v"⟩] :=
  ⟨rfl, rfl, rfl⟩

/-- C9: starting from the empty store, after `set_variable("x", "v")` at
organisation "A" and project "B", `get_organisations()` returns exactly
`["A"]` and `get_projects("A")` returns exactly `["B"]`, although no
environment or service node exists; the enumerations list exactly the
child-mapping keys at the relevant node. -/
theorem C9_enumeration_reflects_structure :
    set_variable [] "x" "v" (.proj "A" "B")
      = .ok [("A", .obj [("B", .obj [("x", .str "v")])])]
    ∧ get_organisations [("A", .obj [("B", .obj [("x", .str "v")])])] = ["A"]
    ∧ get_projects [("A", .obj [("B", .obj [("x", .str "v")])])] "A" = .ok ["B"]
    ∧ get_environments [("A", .obj [("B", .obj [("x", .str "v")])])] "A" "B" = .ok []
    ∧ get_services [("A", .obj [("B", .obj [("x", .str "v")])])] "A" "B" "e" = .ok [] :=
  ⟨rfl, rfl, rfl, rfl, rfl⟩

/-- C5, counterexample: the claim states that a non-null, non-string
locator field fails with a `TypeError`-class error.  At
`organisation = 3` the decorator raises an error of class `ValueError`
(message "organisation must be a string, got int"), and `ValueError` is
not `TypeError`. -/
theorem C5_counterexample_valueerror_not_typeerror :
    validate_hierarchy (some (.int 3)) none none none
      = .error ⟨.valueError, "organisation must be a string, got int"⟩
    ∧ PyErrClass.valueError ≠ PyErrClass.typeError :=
  ⟨rfl, by decide⟩

/-- C7, counterexample: the claim states that `delete_variable` returns
true exactly when the variable existed at the exact level.  On the store
`{"A": {"x": "v"}}`, deleting name "A" at the root returns `true` and
removes the whole organisation subtree, although no variable "A" was
stored at the root — the entry "A" is a child hierarchy node (its value
is a mapping, not a string). -/
theorem C7_counterexample_delete_child_node_returns_true :
    delete_variable [("A", .obj [("x", .str "v")])] "A" .root = .ok (true, [])
    ∧ isVarAt [("A", .obj [("x", .str "v")])] [] "A" = false :=
  ⟨rfl, rfl⟩

/-- C6: `overwrite_hierarchy_variables` called with `None` for either the
base list or the override list raises a `ValueError` and never returns a
result; a null argument is never treated as an empty list. -/
theorem C6_null_rejection (a b : Option (List Item)) (op : Bool)
    (h : a = none ∨ b = none) :
    ∃ msg, overwrite_hierarchy_variables a b op = .error ⟨.valueError, msg⟩ := by
  rcases h with h | h
  · subst h
    cases b with
    | none => exact ⟨"overwrite_variables must be a list", rfl⟩
    | some l => exact ⟨"variables must be a list", rfl⟩
  · subst h
    exact ⟨"overwrite_variables must be a list", rfl⟩

/-- Witness for C6 at the concrete input `(None, [])`. -/
theorem C6_null_rejection_witness :
    ((none : Option (List Item)) = none ∨ (some ([] : List Item)) = none)
    ∧ ∃ msg, overwrite_hierarchy_variables none (some []) false
        = .error ⟨.valueError, msg⟩ :=
  ⟨Or.inl rfl, C6_null_rejection none (some []) false (Or.inl rfl)⟩

theorem dictOfItems_vars (l : List Variable) (acc : VDict) :
    dictOfItems (l.map Item.var) acc
      = .ok (l.foldl (fun a v => vinsert a v.name v) acc) := by
  induction l generalizing acc with
  | nil => rfl
  | cons v l ih =>
    simp only [List.map_cons, List.foldl_cons]
    exact ih (vinsert acc v.name v)

theorem any_map_gen {α β : Type} (f : α → β) (p : β → Bool) (l : List α) :
    (l.map f).any p = l.any (fun a => p (f a)) := by
  induction l with
  | nil => rfl
  | cons x l ih => simp [List.any_cons, ih]

theorem any_key_map (d : VDict) (y : String) :
    d.any (fun p => p.1 = y) = (d.map Prod.fst).any (fun k => k = y) := by
  induction d with
  | nil => rfl
  | cons p d ih => simp [List.any_cons, ih]

theorem findName_eq_none (l : List Variable) (n : String)
    (h : n ∉ l.map Variable.name) : findName l n = none := by
  simp only [findName, List.find?_eq_none]
  intro w hw
  simp only [decide_eq_true_eq]
  intro hwn
  exact h (hwn ▸ List.mem_map_of_mem Variable.name hw)

theorem vinsert_of_mem (d : VDict) (k : String) (v : Variable)
    (h : d.any (fun p => p.1 = k) = true) :
    vinsert d k v = d.map (fun p => if p.1 = k then (p.1, v) else p) := by
  simp [vinsert, h]

theorem vinsert_of_fresh (d : VDict) (k : String) (v : Variable)
    (h : d.any (fun p => p.1 = k) = false) :
    vinsert d k v = d ++ [(k, v)] := by
  simp [vinsert, h]

theorem vinsert_keys_of_mem (d : VDict) (k : String) (v : Variable)
    (h : d.any (fun p => p.1 = k) = true) :
    (vinsert d k v).map Prod.fst = d.map Prod.fst := by
  rw [vinsert_of_mem d k v h, List.map_map]
  apply List.map_congr_left
  intro p _
  by_cases hpk : p.1 = k <;> simp [hpk]

theorem foldl_vinsert_fresh (l : List Variable) :
    ∀ acc : VDict, (∀ v ∈ l, acc.any (fun p => p.1 = v.name) = false) →
      (l.map Variable.name).Nodup →
      l.foldl (fun a v => vinsert a v.name v) acc = acc ++ l.map (fun v => (v.name, v)) := by
  induction l with
  | nil =>
    intro acc _ _
    exact (List.append_nil acc).symm
  | cons v l ih =>
    intro acc hfresh hnd
    simp only [List.map_cons, List.nodup_cons] at hnd
    obtain ⟨hv, hnd⟩ := hnd
    simp only [List.foldl_cons, List.map_cons]
    rw [vinsert_of_fresh acc v.name v (hfresh v (by simp))]
    rw [ih (acc ++ [(v.name, v)]) ?fresh hnd]
    · simp
    case fresh =>
      intro w hw
      rw [List.any_append]
      have h1 : acc.any (fun p => p.1 = w.name) = false := hfresh w (by simp [hw])
      have h2 : w.name ≠ v.name := by
        intro hc
        exact hv (hc ▸ List.mem_map_of_mem Variable.name hw)
      simp [h1, h2, Ne.symm h2]

theorem vvalues_foldl_vinsert (l : List Variable) :
    ∀ d : VDict, ((d.map Prod.fst).Nodup) → ((l.map Variable.name).Nodup) →
      vvalues (l.foldl (fun a w => vinsert a w.name w) d)
        = d.map (fun p => (findName l p.1).getD p.2)
          ++ l.filter (fun w => !(d.any (fun p => p.1 = w.name))) := by
  induction l with
  | nil =>
    intro d _ _
    simp [vvalues, findName]
  | cons w l ih =>
    intro d hd hl
    simp only [List.map_cons, List.nodup_cons] at hl
    obtain ⟨hwl, hl⟩ := hl
    have hfind : findName l w.name = none := findName_eq_none l w.name hwl
    simp only [List.foldl_cons]
    by_cases hc : d.any (fun p => p.1 = w.name) = true
    · have hkeys : (vinsert d w.name w).map Prod.fst = d.map Prod.fst :=
        vinsert_keys_of_mem d w.name w hc
      rw [ih (vinsert d w.name w) (hkeys ▸ hd) hl]
      have hmap : (vinsert d w.name w).map (fun p => (findName l p.1).getD p.2)
          = d.map (fun p => (findName (w :: l) p.1).getD p.2) := by
        rw [vinsert_of_mem d w.name w hc, List.map_map]
        apply List.map_congr_left
        intro p _
        by_cases hpk : p.1 = w.name
        · simp only [Function.comp, hpk, if_pos rfl]
          have h1 : findName (w :: l) w.name = some w := by
            simp [findName, List.find?_cons_of_pos]
          simp [h1, hfind]
        · have h2 : findName (w :: l) p.1 = findName l p.1 := by
            have : ¬ (w.name = p.1) := fun hcontra => hpk hcontra.symm
            simp [findName, List.find?_cons_of_neg, this]
          simp [Function.comp, hpk, h2]
      have hfilter : l.filter (fun x => !((vinsert d w.name w).any (fun p => p.1 = x.name)))
          = l.filter (fun x => !(d.any (fun p => p.1 = x.name))) := by
        apply List.filter_congr
        intro x _
        rw [any_key_map, any_key_map, hkeys]
      have hwdrop : (w :: l).filter (fun x => !(d.any (fun p => p.1 = x.name)))
          = l.filter (fun x => !(d.any (fun p => p.1 = x.name))) := by
        simp [List.filter_cons, hc]
      rw [hmap, hfilter, hwdrop]
    · have hc2 : d.any (fun p => p.1 = w.name) = false :=
        Bool.eq_false_iff.mpr hc
      have hnotin : w.name ∉ d.map Prod.fst := by
        intro hmem
        rcases List.mem_map.mp hmem with ⟨p, hp, hpk⟩
        have h3 := List.any_eq_false.mp hc2 p hp
        exact h3 (by simp [hpk])
      have hkeys : (vinsert d w.name w).map Prod.fst = d.map Prod.fst ++ [w.name] := by
        rw [vinsert_of_fresh d w.name w hc2]
        simp
      have hnodup2 : ((vinsert d w.name w).map Prod.fst).Nodup := by
        rw [hkeys]
        simp [List.nodup_append, hd, hnotin]
      rw [ih (vinsert d w.name w) hnodup2 hl]
      rw [vinsert_of_fresh d w.name w hc2]
      have hmap : (d ++ [(w.name, w)]).map (fun p => (findName l p.1).getD p.2)
          = d.map (fun p => (findName (w :: l) p.1).getD p.2) ++ [w] := by
        rw [List.map_append]
        have h1 : [(w.name, w)].map (fun p => (findName l p.1).getD p.2) = [w] := by
          simp [hfind]
        rw [h1]
        have h2 : d.map (fun p => (findName l p.1).getD p.2)
            = d.map (fun p => (findName (w :: l) p.1).getD p.2) := by
          apply List.map_congr_left
          intro p hp
          have hpk : ¬ (p.1 = w.name) := by
            intro hcontra
            exact hnotin (hcontra ▸ List.mem_map_of_mem Prod.fst hp)
          have : ¬ (w.name = p.1) := fun hcontra => hpk hcontra.symm
          simp [findName, List.find?_cons_of_neg, this]
        rw [h2]
      have hfilter : l.filter (fun x => !((d ++ [(w.name, w)]).any (fun p => p.1 = x.name)))
          = l.filter (fun x => !(d.any (fun p => p.1 = x.name))) := by
        apply List.filter_congr
        intro x hx
        have hxw : ¬ (w.name = x.name) := by
          intro hcontra
          exact hwl (hcontra ▸ List.mem_map_of_mem Variable.name hx)
        simp [List.any_append, hxw]
      have hwkeep : (w :: l).filter (fun x => !(d.any (fun p => p.1 = x.name)))
          = w :: l.filter (fun x => !(d.any (fun p => p.1 = x.name))) := by
        simp [List.filter_cons, hc2]
      rw [hmap, hfilter, hwkeep]
      simp

theorem merge_true_spec (base ov : List Variable)
    (hb : (base.map Variable.name).Nodup) (ho : (ov.map Variable.name).Nodup) :
    overwrite_hierarchy_variables (some (base.map Item.var)) (some (ov.map Item.var)) true
      = .ok (base.map (fun v => (findName ov v.name).getD v)
             ++ ov.filter (fun w => !(hasName base w.name))) := by
  have hDb : base.foldl (fun a v => vinsert a v.name v) []
      = base.map (fun v => (v.name, v)) := by
    simpa using foldl_vinsert_fresh base [] (by intro v _; rfl) hb
  have hDo : ov.foldl (fun a v => vinsert a v.name v) []
      = ov.map (fun v => (v.name, v)) := by
    simpa using foldl_vinsert_fresh ov [] (by intro v _; rfl) ho
  have hkeysDb : ((base.map (fun v => (v.name, v))).map Prod.fst).Nodup := by
    rw [List.map_map]
    simpa [Function.comp] using hb
  simp only [overwrite_hierarchy_variables, dictOfItems_vars, hDb, hDo]
  simp only [vupdate, List.foldl_map]
  rw [vvalues_foldl_vinsert ov (base.map (fun v => (v.name, v))) hkeysDb ho]
  simp only [List.map_map]
  have hfst : ∀ w : Variable,
      (base.map (fun v => (v.name, v))).any (fun p => p.1 = w.name)
        = hasName base w.name := by
    intro w
    rw [any_map_gen]
    rfl
  have hfilter : ov.filter (fun w => !((base.map (fun v => (v.name, v))).any (fun p => p.1 = w.name)))
      = ov.filter (fun w => !(hasName base w.name)) := by
    apply List.filter_congr
    intro w _
    rw [hfst w]
  simp only [if_true]
  rw [hfilter]
  rfl

theorem merge_false_spec (base ov : List Variable)
    (hb : (base.map Variable.name).Nodup) (ho : (ov.map Variable.name).Nodup) :
    overwrite_hierarchy_variables (some (base.map Item.var)) (some (ov.map Item.var)) false
      = .ok (sortByName (ov.map (fun w => (findName base w.name).getD w)
             ++ base.filter (fun v => !(hasName ov v.name)))) := by
  have hDb : base.foldl (fun a v => vinsert a v.name v) []
      = base.map (fun v => (v.name, v)) := by
    simpa using foldl_vinsert_fresh base [] (by intro v _; rfl) hb
  have hDo : ov.foldl (fun a v => vinsert a v.name v) []
      = ov.map (fun v => (v.name, v)) := by
    simpa using foldl_vinsert_fresh ov [] (by intro v _; rfl) ho
  have hkeysDo : ((ov.map (fun v => (v.name, v))).map Prod.fst).Nodup := by
    rw [List.map_map]
    simpa [Function.comp] using ho
  simp only [overwrite_hierarchy_variables, dictOfItems_vars, hDb, hDo]
  simp only [vupdate, List.foldl_map]
  rw [vvalues_foldl_vinsert base (ov.map (fun v => (v.name, v))) hkeysDo hb]
  simp only [List.map_map]
  have hfst : ∀ w : Variable,
      (ov.map (fun v => (v.name, v))).any (fun p => p.1 = w.name)
        = hasName ov w.name := by
    intro w
    rw [any_map_gen]
    rfl
  have hfilter : base.filter (fun w => !((ov.map (fun v => (v.name, v))).any (fun p => p.1 = w.name)))
      = base.filter (fun w => !(hasName ov w.name)) := by
    apply List.filter_congr
    intro w _
    rw [hfst w]
  simp only [Bool.false_eq_true, if_false]
  rw [hfilter]
  rfl

theorem strLeChars_total (a : List Char) : ∀ b, strLeChars a b = true ∨ strLeChars b a = true := by
  induction a with
  | nil => intro b; exact Or.inl rfl
  | cons x as ih =>
    intro b
    cases b with
    | nil => exact Or.inr rfl
    | cons y bs =>
      rcases Nat.lt_trichotomy x.toNat y.toNat with h | h | h
      · left
        simp only [strLeChars]
        rw [if_pos h]
      · have h1 : ¬ x.toNat < y.toNat := by omega
        have h2 : ¬ y.toNat < x.toNat := by omega
        rcases ih bs with hl | hr
        · left
          simp only [strLeChars]
          rw [if_neg h1, if_neg h2]
          exact hl
        · right
          simp only [strLeChars]
          rw [if_neg h2, if_neg h1]
          exact hr
      · right
        simp only [strLeChars]
        rw [if_pos h]

theorem strLeChars_trans (a : List Char) :
    ∀ b c, strLeChars a b = true → strLeChars b c = true → strLeChars a c = true := by
  induction a with
  | nil => intro b c _ _; rfl
  | cons x as ih =>
    intro b c hab hbc
    cases b with
    | nil => exact absurd hab (by simp [strLeChars])
    | cons y bs =>
      cases c with
      | nil => exact absurd hbc (by simp [strLeChars])
      | cons z cs =>
        simp only [strLeChars] at hab hbc ⊢
        rcases Nat.lt_trichotomy x.toNat y.toNat with hxy | hxy | hxy
        · rcases Nat.lt_trichotomy y.toNat z.toNat with hyz | hyz | hyz
          · rw [if_pos (by omega : x.toNat < z.toNat)]
          · rw [if_pos (by omega : x.toNat < z.toNat)]
          · rw [if_neg (by omega : ¬ y.toNat < z.toNat), if_pos hyz] at hbc
            cases hbc
        · rcases Nat.lt_trichotomy y.toNat z.toNat with hyz | hyz | hyz
          · rw [if_pos (by omega : x.toNat < z.toNat)]
          · rw [if_neg (by omega : ¬ x.toNat < y.toNat),
              if_neg (by omega : ¬ y.toNat < x.toNat)] at hab
            rw [if_neg (by omega : ¬ y.toNat < z.toNat),
              if_neg (by omega : ¬ z.toNat < y.toNat)] at hbc
            rw [if_neg (by omega : ¬ x.toNat < z.toNat),
              if_neg (by omega : ¬ z.toNat < x.toNat)]
            exact ih bs cs hab hbc
          · rw [if_neg (by omega : ¬ y.toNat < z.toNat), if_pos hyz] at hbc
            cases hbc
        · rw [if_neg (by omega : ¬ x.toNat < y.toNat), if_pos hxy] at hab
          cases hab

theorem pyStrLe_total (a b : String) : pyStrLe a b = true ∨ pyStrLe b a = true :=
  strLeChars_total a.data b.data

theorem pyStrLe_trans (a b c : String) (hab : pyStrLe a b = true) (hbc : pyStrLe b c = true) :
    pyStrLe a c = true :=
  strLeChars_trans a.data b.data c.data hab hbc

theorem mem_insertSorted (v x : Variable) (l : List Variable) :
    x ∈ insertSorted v l ↔ x = v ∨ x ∈ l := by
  induction l with
  | nil => simp [insertSorted]
  | cons w rest ih =>
    simp only [insertSorted]
    by_cases h : pyStrLe w.name v.name = true
    · rw [if_pos h]
      simp only [List.mem_cons, ih]
      tauto
    · rw [if_neg h]
      simp only [List.mem_cons]

theorem pairwise_insertSorted (v : Variable) (l : List Variable)
    (hl : List.Pairwise (fun a b => pyStrLe a.name b.name = true) l) :
    List.Pairwise (fun a b => pyStrLe a.name b.name = true) (insertSorted v l) := by
  induction l with
  | nil => simp [insertSorted]
  | cons w rest ih =>
    rw [List.pairwise_cons] at hl
    obtain ⟨hw, hrest⟩ := hl
    simp only [insertSorted]
    by_cases h : pyStrLe w.name v.name = true
    · rw [if_pos h]
      rw [List.pairwise_cons]
      refine ⟨?_, ih hrest⟩
      intro x hx
      rcases (mem_insertSorted v x rest).mp hx with rfl | hx
      · exact h
      · exact hw x hx
    · have hvw : pyStrLe v.name w.name = true := by
        rcases pyStrLe_total v.name w.name with h1 | h1
        · exact h1
        · exact absurd h1 h
      rw [if_neg h]
      rw [List.pairwise_cons]
      refine ⟨?_, List.pairwise_cons.mpr ⟨hw, hrest⟩⟩
      intro x hx
      rcases List.mem_cons.mp hx with rfl | hx
      · exact hvw
      · exact pyStrLe_trans v.name w.name x.name hvw (hw x hx)

theorem sortByName_pairwise (l : List Variable) :
    List.Pairwise (fun a b => pyStrLe a.name b.name = true) (sortByName l) := by
  suffices h : ∀ acc, List.Pairwise (fun a b => pyStrLe a.name b.name = true) acc →
      List.Pairwise (fun a b => pyStrLe a.name b.name = true)
        (l.foldl (fun a v => insertSorted v a) acc) from
    h [] (by simp)
  induction l with
  | nil => intro acc h; exact h
  | cons v l ih =>
    intro acc h
    exact ih (insertSorted v acc) (pairwise_insertSorted v acc h)

/-- C3: for name-unique variable lists `base` and `override` (the merge's
documented precondition), `overwrite_hierarchy_variables` with
`overwrite_parent = true` returns the name-indexed union in which a name
present in both lists carries `override`'s value, in insertion order:
`base`'s entries first (updated in place where overridden), then
`override`'s new entries appended. -/
theorem C3_merge_override_precedence (base ov : List Variable)
    (hb : (base.map Variable.name).Nodup) (ho : (ov.map Variable.name).Nodup) :
    overwrite_hierarchy_variables (some (base.map Item.var)) (some (ov.map Item.var)) true
      = .ok (base.map (fun v => (findName ov v.name).getD v)
             ++ ov.filter (fun w => !(hasName base w.name))) :=
  merge_true_spec base ov hb ho

/-- Witness for C3 at the spec's own example:
`merge([{a:1},{b:2}], [{b:3},{c:4}], parentWins=true) == [{a:1},{b:3},{c:4}]`. -/
theorem C3_merge_override_precedence_witness :
    ((([⟨"a", "1"⟩, ⟨"b", "2"⟩] : List Variable).map Variable.name).Nodup
      ∧ (([⟨"b", "3"⟩, ⟨"c", "4"⟩] : List Variable).map Variable.name).Nodup)
    ∧ overwrite_hierarchy_variables
        (some (([⟨"a", "1"⟩, ⟨"b", "2"⟩] : List Variable).map Item.var))
        (some (([⟨"b", "3"⟩, ⟨"c", "4"⟩] : List Variable).map Item.var)) true
      = .ok [⟨"a", "1"⟩, ⟨"b", "3"⟩, ⟨"c", "4"⟩] := by
  refine ⟨⟨by decide, by decide⟩, ?_⟩
  rw [C3_merge_override_precedence [⟨"a", "1"⟩, ⟨"b", "2"⟩] [⟨"b", "3"⟩, ⟨"c", "4"⟩]
    (by decide) (by decide)]
  rfl

/-- C4: for name-unique variable lists `base` and `override`,
`overwrite_hierarchy_variables` with `overwrite_parent = false` returns
the name-indexed union in which a name present in both lists carries
`base`'s (the parent's) value, sorted lexicographically by variable
name. -/
theorem C4_merge_parent_precedence_sorted (base ov : List Variable)
    (hb : (base.map Variable.name).Nodup) (ho : (ov.map Variable.name).Nodup) :
    overwrite_hierarchy_variables (some (base.map Item.var)) (some (ov.map Item.var)) false
      = .ok (sortByName (ov.map (fun w => (findName base w.name).getD w)
             ++ base.filter (fun v => !(hasName ov v.name))))
    ∧ ∀ out,
        overwrite_hierarchy_variables (some (base.map Item.var)) (some (ov.map Item.var)) false
          = .ok out →
        List.Pairwise (fun a b => pyStrLe a.name b.name = true) out := by
  refine ⟨merge_false_spec base ov hb ho, ?_⟩
  intro out hout
  rw [merge_false_spec base ov hb ho] at hout
  cases hout
  exact sortByName_pairwise _

/-- Witness for C4 at the spec's own example:
`merge([{a:1},{b:2}], [{b:3},{c:4}], parentWins=false) == [{a:1},{b:2},{c:4}]`
sorted by name. -/
theorem C4_merge_parent_precedence_sorted_witness :
    ((([⟨"a", "1"⟩, ⟨"b", "2"⟩] : List Variable).map Variable.name).Nodup
      ∧ (([⟨"b", "3"⟩, ⟨"c", "4"⟩] : List Variable).map Variable.name).Nodup)
    ∧ overwrite_hierarchy_variables
        (some (([⟨"a", "1"⟩, ⟨"b", "2"⟩] : List Variable).map Item.var))
        (some (([⟨"b", "3"⟩, ⟨"c", "4"⟩] : List Variable).map Item.var)) false
      = .ok [⟨"a", "1"⟩, ⟨"b", "2"⟩, ⟨"c", "4"⟩]
    ∧ List.Pairwise (fun a b => pyStrLe a.name b.name = true)
        ([⟨"a", "1"⟩, ⟨"b", "2"⟩, ⟨"c", "4"⟩] : List Variable) := by
  have h := C4_merge_parent_precedence_sorted [⟨"a", "1"⟩, ⟨"b", "2"⟩] [⟨"b", "3"⟩, ⟨"c", "4"⟩]
    (by decide) (by decide)
  refine ⟨⟨by decide, by decide⟩, ?_, by decide⟩
  rw [h.1]
  rfl

theorem dlookup_cons (p : String × JVal) (rest : JObj) (k : String) :
    dlookup (p :: rest) k = if p.1 = k then some p.2 else dlookup rest k := by
  cases p
  rfl

theorem dcontains_cons (p : String × JVal) (rest : JObj) (k : String) :
    dcontains (p :: rest) k = if p.1 = k then true else dcontains rest k := by
  simp only [dcontains, dlookup_cons]
  by_cases h : p.1 = k <;> simp [h]

theorem dlookup_map_update_self (d : JObj) (k : String) (v : JVal)
    (h : dcontains d k = true) :
    dlookup (d.map (fun p => if p.1 = k then (p.1, v) else p)) k = some v := by
  induction d with
  | nil => simp [dcontains, dlookup] at h
  | cons p rest ih =>
    by_cases hpk : p.1 = k
    · simp [dlookup_cons, hpk]
    · rw [dcontains_cons, if_neg hpk] at h
      simp only [List.map_cons, if_neg hpk, dlookup_cons]
      exact ih h

theorem dlookup_map_update_ne (d : JObj) (k m : String) (v : JVal) (h : ¬ k = m) :
    dlookup (d.map (fun p => if p.1 = k then (p.1, v) else p)) m = dlookup d m := by
  induction d with
  | nil => rfl
  | cons p rest ih =>
    by_cases hpk : p.1 = k
    · have hpm : ¬ p.1 = m := fun hh => h (hpk.symm.trans hh)
      simp only [List.map_cons, if_pos hpk, dlookup_cons]
      rw [if_neg hpm, if_neg hpm]
      exact ih
    · simp only [List.map_cons, if_neg hpk, dlookup_cons]
      by_cases hpm : p.1 = m
      · rw [if_pos hpm, if_pos hpm]
      · rw [if_neg hpm, if_neg hpm]
        exact ih

theorem dlookup_append_single_self (d : JObj) (k : String) (v : JVal)
    (h : dcontains d k = false) :
    dlookup (d ++ [(k, v)]) k = some v := by
  induction d with
  | nil => simp [dlookup_cons]
  | cons p rest ih =>
    rw [dcontains_cons] at h
    by_cases hpk : p.1 = k
    · rw [if_pos hpk] at h
      cases h
    · rw [if_neg hpk] at h
      simp only [List.cons_append, dlookup_cons]
      rw [if_neg hpk]
      exact ih h

theorem dlookup_append_single_ne (d : JObj) (k m : String) (v : JVal) (h : ¬ k = m) :
    dlookup (d ++ [(k, v)]) m = dlookup d m := by
  induction d with
  | nil =>
    simp only [List.nil_append, dlookup_cons]
    rw [if_neg h]
  | cons p rest ih =>
    simp only [List.cons_append, dlookup_cons]
    by_cases hpm : p.1 = m
    · rw [if_pos hpm, if_pos hpm]
    · rw [if_neg hpm, if_neg hpm]
      exact ih

theorem dlookup_dset_self (d : JObj) (k : String) (v : JVal) :
    dlookup (dset d k v) k = some v := by
  unfold dset
  by_cases hc : dcontains d k
  · rw [if_pos hc]
    exact dlookup_map_update_self d k v hc
  · rw [if_neg hc]
    simp only [Bool.not_eq_true] at hc
    exact dlookup_append_single_self d k v hc

theorem dlookup_dset_ne (d : JObj) (k m : String) (v : JVal) (h : ¬ k = m) :
    dlookup (dset d k v) m = dlookup d m := by
  unfold dset
  by_cases hc : dcontains d k
  · rw [if_pos hc]
    exact dlookup_map_update_ne d k m v h
  · rw [if_neg hc]
    exact dlookup_append_single_ne d k m v h

theorem dlookup_dremove_self (d : JObj) (k : String) :
    dlookup (dremove d k) k = none := by
  induction d with
  | nil => rfl
  | cons p rest ih =>
    simp only [dremove]
    by_cases hpk : p.1 = k
    · rw [if_pos hpk]
      exact ih
    · rw [if_neg hpk, dlookup_cons, if_neg hpk]
      exact ih

theorem dremove_of_not_contains (d : JObj) (k : String) (h : dcontains d k = false) :
    dremove d k = d := by
  induction d with
  | nil => rfl
  | cons p rest ih =>
    rw [dcontains_cons] at h
    by_cases hpk : p.1 = k
    · rw [if_pos hpk] at h
      cases h
    · rw [if_neg hpk] at h
      simp only [dremove]
      rw [if_neg hpk, ih h]

theorem dcontains_dremove_self (d : JObj) (k : String) :
    dcontains (dremove d k) k = false := by
  simp [dcontains, dlookup_dremove_self]

theorem nodeAt_nil (P : List String) : nodeAt [] P = [] := by
  induction P with
  | nil => rfl
  | cons k ks ih => simpa [nodeAt, dlookup] using ih

theorem getChain_nil (P : List String) (n : String) : getChain [] P n = .ok none := by
  induction P with
  | nil => rfl
  | cons k ks ih => simpa [getChain, dlookup] using ih

theorem getChain_clean (P : List String) :
    ∀ d : JObj, cleanPath d P = true → ∀ n, getChain d P n = .ok (dlookup (nodeAt d P) n) := by
  induction P with
  | nil => intro d _ n; rfl
  | cons k ks ih =>
    intro d hclean n
    cases hdk : dlookup d k with
    | none =>
      simp only [getChain, nodeAt, hdk]
      rw [getChain_nil, nodeAt_nil]
      rfl
    | some val =>
      cases val with
      | str s =>
        rw [cleanPath] at hclean
        simp only [hdk] at hclean
        cases hclean
      | obj c =>
        rw [cleanPath] at hclean
        simp only [hdk] at hclean
        simp only [getChain, nodeAt, hdk]
        exact ih c hclean n

theorem delChain_clean (P : List String) :
    ∀ d : JObj, cleanPath d P = true → ∀ n,
      delChain d P n = .ok (dcontains (nodeAt d P) n, removeAt d P n) := by
  induction P with
  | nil =>
    intro d _ n
    simp only [delChain, nodeAt, removeAt]
    by_cases hc : dcontains d n
    · rw [if_pos hc, if_pos hc, hc]
    · rw [if_neg hc, if_neg hc]
      simp only [Bool.not_eq_true] at hc
      rw [hc]
  | cons k ks ih =>
    intro d hclean n
    cases hdk : dlookup d k with
    | none =>
      simp only [delChain, nodeAt, removeAt, hdk]
      rw [nodeAt_nil]
      rfl
    | some val =>
      cases val with
      | str s =>
        rw [cleanPath] at hclean
        simp only [hdk] at hclean
        cases hclean
      | obj c =>
        rw [cleanPath] at hclean
        simp only [hdk] at hclean
        simp only [delChain, nodeAt, removeAt, hdk]
        rw [ih c hclean n]
        by_cases hc : dcontains (nodeAt c ks) n
        · rw [if_pos hc, hc]
        · rw [if_neg hc]
          simp only [Bool.not_eq_true] at hc
          rw [hc]

theorem removeAt_noop (P : List String) (n : String) :
    ∀ d : JObj, dcontains (nodeAt d P) n = false → removeAt d P n = d := by
  induction P with
  | nil =>
    intro d h
    simp only [removeAt, nodeAt] at h ⊢
    rw [if_neg (by simp [h])]
  | cons k ks ih =>
    intro d h
    cases hdk : dlookup d k with
    | none => simp [removeAt, hdk]
    | some val =>
      cases val with
      | str s => simp [removeAt, hdk]
      | obj c =>
        simp only [nodeAt, hdk] at h
        simp only [removeAt, hdk]
        rw [if_neg (by simp [h])]

theorem cleanPath_removeAt (P : List String) (n : String) :
    ∀ d : JObj, cleanPath d P = true → cleanPath (removeAt d P n) P = true := by
  induction P with
  | nil => intro d _; rfl
  | cons k ks ih =>
    intro d hclean
    cases hdk : dlookup d k with
    | none => simp [removeAt, hdk, cleanPath]
    | some val =>
      cases val with
      | str s =>
        rw [cleanPath] at hclean
        simp only [hdk] at hclean
        cases hclean
      | obj c =>
        rw [cleanPath] at hclean
        simp only [hdk] at hclean
        simp only [removeAt, hdk]
        by_cases hc : dcontains (nodeAt c ks) n
        · rw [if_pos hc]
          rw [cleanPath]
          simp only [dlookup_dset_self]
          exact ih c hclean
        · rw [if_neg hc]
          rw [cleanPath]
          simp only [hdk]
          exact hclean

theorem nodeAt_removeAt (P : List String) (n : String) :
    ∀ d : JObj, cleanPath d P = true →
      nodeAt (removeAt d P n) P = dremove (nodeAt d P) n := by
  induction P with
  | nil =>
    intro d _
    simp only [removeAt, nodeAt]
    by_cases hc : dcontains d n
    · rw [if_pos hc]
    · rw [if_neg hc]
      simp only [Bool.not_eq_true] at hc
      rw [dremove_of_not_contains d n hc]
  | cons k ks ih =>
    intro d hclean
    cases hdk : dlookup d k with
    | none =>
      simp only [removeAt, nodeAt, hdk]
      rw [nodeAt_nil]
      rfl
    | some val =>
      cases val with
      | str s =>
        rw [cleanPath] at hclean
        simp only [hdk] at hclean
        cases hclean
      | obj c =>
        rw [cleanPath] at hclean
        simp only [hdk] at hclean
        simp only [removeAt, nodeAt, hdk]
        by_cases hc : dcontains (nodeAt c ks) n
        · rw [if_pos hc]
          simp only [nodeAt, dlookup_dset_self]
          exact ih c hclean
        · rw [if_neg hc]
          simp only [nodeAt, hdk]
          simp only [Bool.not_eq_true] at hc
          rw [dremove_of_not_contains _ n hc]

/-- C7, amended: for every name and valid locator whose walked path is
free of string collisions, `delete_variable` returns true exactly when an
entry with that name (a variable or a child hierarchy node) existed
directly at that exact level and was removed, false when the name was
absent (leaving the store unchanged), never raising; a second delete
returns false and leaves the state unchanged, and a subsequent get
returns absent. -/
theorem C7_amended_delete_contract (d : JObj) (l : Loc) (n : String)
    (h : cleanPath d l.path = true) :
    ∃ d2, delete_variable d n l = .ok (dcontains (nodeAt d l.path) n, d2)
      ∧ (dcontains (nodeAt d l.path) n = false → d2 = d)
      ∧ delete_variable d2 n l = .ok (false, d2)
      ∧ get_variable d2 n l = .ok none := by
  refine ⟨removeAt d l.path n, ?_, ?_, ?_, ?_⟩
  · exact delChain_clean l.path d h n
  · intro hc
    exact removeAt_noop l.path n d hc
  · have hclean2 := cleanPath_removeAt l.path n d h
    have hnc : dcontains (nodeAt (removeAt d l.path n) l.path) n = false := by
      rw [nodeAt_removeAt l.path n d h]
      exact dcontains_dremove_self _ n
    have hnoop := removeAt_noop l.path n (removeAt d l.path n) hnc
    show delChain (removeAt d l.path n) l.path n = .ok (false, removeAt d l.path n)
    rw [delChain_clean l.path _ hclean2 n, hnc, hnoop]
  · have hclean2 := cleanPath_removeAt l.path n d h
    show getChain (removeAt d l.path n) l.path n = .ok none
    rw [getChain_clean l.path _ hclean2 n, nodeAt_removeAt l.path n d h,
      dlookup_dremove_self]

/-- Witness for C7 (amended) on a concrete two-variable root store. -/
theorem C7_amended_delete_contract_witness :
    cleanPath [("x", JVal.str "1"), ("y", JVal.str "2")] Loc.root.path = true
    ∧ ∃ d2, delete_variable [("x", JVal.str "1"), ("y", JVal.str "2")] "x" .root
          = .ok (dcontains (nodeAt [("x", JVal.str "1"), ("y", JVal.str "2")] Loc.root.path) "x", d2)
        ∧ (dcontains (nodeAt [("x", JVal.str "1"), ("y", JVal.str "2")] Loc.root.path) "x" = false →
            d2 = [("x", JVal.str "1"), ("y", JVal.str "2")])
        ∧ delete_variable d2 "x" .root = .ok (false, d2)
        ∧ get_variable d2 "x" .root = .ok none :=
  ⟨rfl, C7_amended_delete_contract [("x", JVal.str "1"), ("y", JVal.str "2")] .root "x" rfl⟩

theorem setChain_nil (ks : List String) (n v : String) :
    setChain [] ks n v = .ok (mkChain ks n v) := by
  induction ks with
  | nil => rfl
  | cons k ks ih =>
    simp only [setChain, dlookup, ih, mkChain]
    rfl

theorem getChain_setChain_self (P : List String) :
    ∀ d d2 : JObj, ∀ n v, setChain d P n v = .ok d2 →
      getChain d2 P n = .ok (some (.str v)) := by
  induction P with
  | nil =>
    intro d d2 n v hset
    simp only [setChain] at hset
    cases hset
    simp only [getChain, dlookup_dset_self]
  | cons k ks ih =>
    intro d d2 n v hset
    simp only [setChain] at hset
    cases hdk : dlookup d k with
    | none =>
      simp only [hdk] at hset
      rw [setChain_nil ks n v] at hset
      cases hset
      simp only [getChain, dlookup_dset_self]
      exact ih [] (mkChain ks n v) n v (setChain_nil ks n v)
    | some val =>
      cases val with
      | str s =>
        simp only [hdk] at hset
        by_cases hks : ks.isEmpty <;> simp [hks] at hset
      | obj c =>
        simp only [hdk] at hset
        cases hc2 : setChain c ks n v with
        | ok c2 =>
          rw [hc2] at hset
          cases hset
          simp only [getChain, dlookup_dset_self]
          exact ih c c2 n v hc2
        | error e =>
          rw [hc2] at hset
          cases hset

theorem readVarStr_nil (Q : List String) (m : String) : readVarStr [] Q m = none := by
  simp [readVarStr, getChain_nil]

theorem readVarStr_cons_obj (d : JObj) (k : String) (c : List (String × JVal))
    (qs : List String) (m : String) (h : dlookup d k = some (.obj c)) :
    readVarStr d (k :: qs) m = readVarStr c qs m := by
  simp [readVarStr, getChain, h]

theorem readVarStr_cons_none (d : JObj) (k : String) (qs : List String) (m : String)
    (h : dlookup d k = none) :
    readVarStr d (k :: qs) m = none := by
  simp [readVarStr, getChain, h, getChain_nil]

theorem readVarStr_cons_str (d : JObj) (k s : String) (qs : List String) (m : String)
    (h : dlookup d k = some (.str s)) :
    readVarStr d (k :: qs) m = none := by
  simp [readVarStr, getChain, h]

theorem readVarStr_mkChain_not_prefix (ks : List String) :
    ∀ qs n v m, (ks ++ [n]).isPrefixOf (qs ++ [m]) = false →
      readVarStr (mkChain ks n v) qs m = none := by
  induction ks with
  | nil =>
    intro qs n v m hpre
    cases qs with
    | nil =>
      have hnm : ¬ n = m := by simpa [List.isPrefixOf] using hpre
      simp [readVarStr, getChain, mkChain, dlookup_cons, hnm, dlookup]
    | cons q qs2 =>
      by_cases hnq : n = q
      · apply readVarStr_cons_str (mkChain [] n v) q v qs2 m
        simp [mkChain, dlookup_cons, hnq]
      · apply readVarStr_cons_none (mkChain [] n v) q qs2 m
        simp [mkChain, dlookup_cons, hnq, dlookup]
  | cons a ks2 ih =>
    intro qs n v m hpre
    cases qs with
    | nil =>
      by_cases ham : a = m <;>
        simp [readVarStr, getChain, mkChain, dlookup_cons, ham, dlookup]
    | cons q qs2 =>
      by_cases haq : a = q
      · subst haq
        rw [readVarStr_cons_obj (mkChain (a :: ks2) n v) a (mkChain ks2 n v) qs2 m
          (by simp [mkChain, dlookup_cons])]
        apply ih qs2 n v m
        simpa [List.cons_append, List.isPrefixOf] using hpre
      · apply readVarStr_cons_none (mkChain (a :: ks2) n v) q qs2 m
        simp [mkChain, dlookup_cons, haq, dlookup]

theorem readVarStr_mkChain_under (ks : List String) :
    ∀ qs n v m, (ks ++ [n]).isPrefixOf qs = true →
      readVarStr (mkChain ks n v) qs m = none := by
  induction ks with
  | nil =>
    intro qs n v m hpre
    cases qs with
    | nil => simp [List.isPrefixOf] at hpre
    | cons q qs2 =>
      have hnq : n = q := by simpa [List.isPrefixOf] using hpre
      apply readVarStr_cons_str (mkChain [] n v) q v qs2 m
      simp [mkChain, dlookup_cons, hnq]
  | cons a ks2 ih =>
    intro qs n v m hpre
    cases qs with
    | nil => simp [List.cons_append, List.isPrefixOf] at hpre
    | cons q qs2 =>
      have h2 : a = q ∧ (ks2 ++ [n]).isPrefixOf qs2 = true := by
        simpa [List.cons_append, List.isPrefixOf] using hpre
      obtain ⟨haq, hrest⟩ := h2
      subst haq
      rw [readVarStr_cons_obj (mkChain (a :: ks2) n v) a (mkChain ks2 n v) qs2 m
        (by simp [mkChain, dlookup_cons])]
      exact ih qs2 n v m hrest

theorem setChain_frame (P : List String) :
    ∀ d d2 : JObj, ∀ n v, setChain d P n v = .ok d2 →
      ∀ Q m, (P ++ [n]).isPrefixOf (Q ++ [m]) = false →
        readVarStr d2 Q m = readVarStr d Q m := by
  induction P with
  | nil =>
    intro d d2 n v hset Q m hpre
    simp only [setChain] at hset
    cases hset
    cases Q with
    | nil =>
      have hnm : ¬ n = m := by simpa [List.isPrefixOf] using hpre
      simp [readVarStr, getChain, dlookup_dset_ne d n m _ hnm]
    | cons q qs =>
      have hnq : ¬ n = q := by
        intro hcontra
        subst hcontra
        simp [List.cons_append, List.isPrefixOf] at hpre
      cases hdq : dlookup d q with
      | none =>
        rw [readVarStr_cons_none _ q qs m (by rw [dlookup_dset_ne d n q _ hnq]; exact hdq),
          readVarStr_cons_none d q qs m hdq]
      | some val =>
        cases val with
        | str s =>
          rw [readVarStr_cons_str _ q s qs m (by rw [dlookup_dset_ne d n q _ hnq]; exact hdq),
            readVarStr_cons_str d q s qs m hdq]
        | obj c =>
          rw [readVarStr_cons_obj _ q c qs m (by rw [dlookup_dset_ne d n q _ hnq]; exact hdq),
            readVarStr_cons_obj d q c qs m hdq]
  | cons k ks ih =>
    intro d d2 n v hset Q m hpre
    simp only [setChain] at hset
    cases hdk : dlookup d k with
    | none =>
      simp only [hdk] at hset
      rw [setChain_nil ks n v] at hset
      cases hset
      cases Q with
      | nil =>
        by_cases hkm : k = m
        · subst hkm
          simp [readVarStr, getChain, dlookup_dset_self, hdk]
        · simp [readVarStr, getChain, dlookup_dset_ne d k m _ hkm]
      | cons q qs =>
        by_cases hkq : k = q
        · subst hkq
          rw [readVarStr_cons_obj _ k (mkChain ks n v) qs m (dlookup_dset_self d k _),
            readVarStr_cons_none d k qs m hdk]
          apply readVarStr_mkChain_not_prefix ks qs n v m
          simpa [List.cons_append, List.isPrefixOf] using hpre
        · cases hdq : dlookup d q with
          | none =>
            rw [readVarStr_cons_none _ q qs m (by rw [dlookup_dset_ne d k q _ hkq]; exact hdq),
              readVarStr_cons_none d q qs m hdq]
          | some val =>
            cases val with
            | str s =>
              rw [readVarStr_cons_str _ q s qs m (by rw [dlookup_dset_ne d k q _ hkq]; exact hdq),
                readVarStr_cons_str d q s qs m hdq]
            | obj c =>
              rw [readVarStr_cons_obj _ q c qs m (by rw [dlookup_dset_ne d k q _ hkq]; exact hdq),
                readVarStr_cons_obj d q c qs m hdq]
    | some val =>
      cases val with
      | str s =>
        simp only [hdk] at hset
        by_cases hks : ks.isEmpty <;> simp [hks] at hset
      | obj c =>
        simp only [hdk] at hset
        cases hc2 : setChain c ks n v with
        | error e =>
          rw [hc2] at hset
          cases hset
        | ok c2 =>
          rw [hc2] at hset
          cases hset
          cases Q with
          | nil =>
            by_cases hkm : k = m
            · subst hkm
              simp [readVarStr, getChain, dlookup_dset_self, hdk]
            · simp [readVarStr, getChain, dlookup_dset_ne d k m _ hkm]
          | cons q qs =>
            by_cases hkq : k = q
            · subst hkq
              rw [readVarStr_cons_obj _ k c2 qs m (dlookup_dset_self d k _),
                readVarStr_cons_obj d k c qs m hdk]
              apply ih c c2 n v hc2 qs m
              simpa [List.cons_append, List.isPrefixOf] using hpre
            · cases hdq : dlookup d q with
              | none =>
                rw [readVarStr_cons_none _ q qs m (by rw [dlookup_dset_ne d k q _ hkq]; exact hdq),
                  readVarStr_cons_none d q qs m hdq]
              | some val2 =>
                cases val2 with
                | str s2 =>
                  rw [readVarStr_cons_str _ q s2 qs m (by rw [dlookup_dset_ne d k q _ hkq]; exact hdq),
                    readVarStr_cons_str d q s2 qs m hdq]
                | obj c3 =>
                  rw [readVarStr_cons_obj _ q c3 qs m (by rw [dlookup_dset_ne d k q _ hkq]; exact hdq),
                    readVarStr_cons_obj d q c3 qs m hdq]

theorem setChain_under (P : List String) :
    ∀ d d2 : JObj, ∀ n v, setChain d P n v = .ok d2 →
      ∀ Q m, (P ++ [n]).isPrefixOf Q = true → readVarStr d2 Q m = none := by
  induction P with
  | nil =>
    intro d d2 n v hset Q m hpre
    simp only [setChain] at hset
    cases hset
    cases Q with
    | nil => simp [List.isPrefixOf] at hpre
    | cons q qs =>
      have hnq : n = q := by simpa [List.isPrefixOf] using hpre
      subst hnq
      exact readVarStr_cons_str _ n v qs m (dlookup_dset_self d n _)
  | cons k ks ih =>
    intro d d2 n v hset Q m hpre
    simp only [setChain] at hset
    cases Q with
    | nil => simp [List.cons_append, List.isPrefixOf] at hpre
    | cons q qs =>
      have h2 : k = q ∧ (ks ++ [n]).isPrefixOf qs = true := by
        simpa [List.cons_append, List.isPrefixOf] using hpre
      obtain ⟨hkq, hrest⟩ := h2
      subst hkq
      cases hdk : dlookup d k with
      | none =>
        simp only [hdk] at hset
        rw [setChain_nil ks n v] at hset
        cases hset
        rw [readVarStr_cons_obj _ k (mkChain ks n v) qs m (dlookup_dset_self d k _)]
        exact readVarStr_mkChain_under ks qs n v m hrest
      | some val =>
        cases val with
        | str s =>
          simp only [hdk] at hset
          by_cases hks : ks.isEmpty <;> simp [hks] at hset
        | obj c =>
          simp only [hdk] at hset
          cases hc2 : setChain c ks n v with
          | error e =>
            rw [hc2] at hset
            cases hset
          | ok c2 =>
            rw [hc2] at hset
            cases hset
            rw [readVarStr_cons_obj _ k c2 qs m (dlookup_dset_self d k _)]
            exact ih c c2 n v hc2 qs m hrest

theorem getChain_mkChain_ne (P : List String) :
    ∀ Q : List String, P.length = Q.length → ¬ P = Q → ∀ n v m,
      getChain (mkChain P n v) Q m = .ok none := by
  induction P with
  | nil =>
    intro Q hlen hne n v m
    cases Q with
    | nil => exact absurd rfl hne
    | cons q qs => simp at hlen
  | cons a P2 ih =>
    intro Q hlen hne n v m
    cases Q with
    | nil => simp at hlen
    | cons q qs =>
      by_cases haq : a = q
      · subst haq
        have hne2 : ¬ P2 = qs := fun hh => hne (by rw [hh])
        have hlen2 : P2.length = qs.length := by simpa using hlen
        simp only [mkChain, getChain, dlookup_cons, if_pos rfl]
        exact ih qs hlen2 hne2 n v m
      · simp only [mkChain, getChain, dlookup_cons, if_neg haq, dlookup]
        rw [getChain_nil]

/-- C8: after `set_variable(n, v)` at a service-level locator, reading the
same name at the same exact locator returns the identical value; starting
from the empty store, reading at any non-matching service-level sibling
locator returns absent. -/
theorem C8_set_get_roundtrip (d d2 : JObj) (n v o p e s o2 p2 e2 s2 : String)
    (hset : set_variable d n v (.svc o p e s) = .ok d2) :
    get_variable d2 n (.svc o p e s) = .ok (some (.str v))
    ∧ (d = [] → Loc.svc o p e s ≠ Loc.svc o2 p2 e2 s2 →
        get_variable d2 n (.svc o2 p2 e2 s2) = .ok none) := by
  constructor
  · exact getChain_setChain_self (Loc.svc o p e s).path d d2 n v hset
  · intro hd hne
    subst hd
    show getChain d2 [o2, p2, e2, s2] n = .ok none
    rw [show set_variable [] n v (.svc o p e s) = setChain [] [o, p, e, s] n v from rfl,
      setChain_nil [o, p, e, s] n v] at hset
    cases hset
    have hpne : ¬ ([o, p, e, s] : List String) = [o2, p2, e2, s2] := by
      intro hh
      simp only [List.cons.injEq] at hh
      obtain ⟨h1, h2, h3, h4, _⟩ := hh
      exact hne (by rw [h1, h2, h3, h4])
    exact getChain_mkChain_ne [o, p, e, s] [o2, p2, e2, s2] rfl hpne n v n

/-- Witness for C8 on the empty store with sibling services "s" and "t". -/
theorem C8_set_get_roundtrip_witness :
    set_variable [] "n" "v" (.svc "o" "p" "e" "s")
      = .ok (mkChain ["o", "p", "e", "s"] "n" "v")
    ∧ get_variable (mkChain ["o", "p", "e", "s"] "n" "v") "n" (.svc "o" "p" "e" "s")
      = .ok (some (.str "v"))
    ∧ get_variable (mkChain ["o", "p", "e", "s"] "n" "v") "n" (.svc "o" "p" "e" "t")
      = .ok none := by
  have h := C8_set_get_roundtrip [] (mkChain ["o", "p", "e", "s"] "n" "v")
    "n" "v" "o" "p" "e" "s" "o" "p" "e" "t" rfl
  exact ⟨rfl, h.1, h.2 rfl (by decide)⟩

/-- C10: a successful `set_variable(n, v, L)` leaves the variable stored at
every locator/name pair not extending the written entry `path(L) ++ [n]`
unchanged; every read through the written entry (that is, below a child
hierarchy node whose name collided with `n`) now finds no variable, since
the whole child subtree was replaced by the plain string `v`, which the
exact-level read returns. -/
theorem C10_set_frame (d d2 : JObj) (l : Loc) (n v : String)
    (hset : set_variable d n v l = .ok d2) :
    (∀ Q m, (l.path ++ [n]).isPrefixOf (Q ++ [m]) = false →
        readVarStr d2 Q m = readVarStr d Q m)
    ∧ (∀ Q m, (l.path ++ [n]).isPrefixOf Q = true → readVarStr d2 Q m = none)
    ∧ getChain d2 l.path n = .ok (some (.str v)) :=
  ⟨fun Q m hpre => setChain_frame l.path d d2 n v hset Q m hpre,
   fun Q m hpre => setChain_under l.path d d2 n v hset Q m hpre,
   getChain_setChain_self l.path d d2 n v hset⟩

/-- Witness for C10: organisation "A" holds a child project node "B" with
a stored variable `y = w`; `set_variable("B", "v")` at organisation "A"
replaces the whole project subtree with the string "v", a sibling
variable `z` at organisation "A" survives, and `y` under the old subtree
becomes unreadable. -/
theorem C10_set_frame_witness :
    set_variable [("A", JVal.obj [("B", JVal.obj [("y", JVal.str "w")]), ("z", JVal.str "u")])]
        "B" "v" (.org "A")
      = .ok [("A", JVal.obj [("B", JVal.str "v"), ("z", JVal.str "u")])]
    ∧ readVarStr [("A", JVal.obj [("B", JVal.obj [("y", JVal.str "w")]), ("z", JVal.str "u")])]
        ["A", "B"] "y" = some "w"
    ∧ readVarStr [("A", JVal.obj [("B", JVal.str "v"), ("z", JVal.str "u")])]
        ["A", "B"] "y" = none
    ∧ readVarStr [("A", JVal.obj [("B", JVal.str "v"), ("z", JVal.str "u")])] ["A"] "z"
      = readVarStr [("A", JVal.obj [("B", JVal.obj [("y", JVal.str "w")]), ("z", JVal.str "u")])]
          ["A"] "z"
    ∧ getChain [("A", JVal.obj [("B", JVal.str "v"), ("z", JVal.str "u")])] (Loc.org "A").path "B"
      = .ok (some (.str "v")) := by
  have h := C10_set_frame
    [("A", JVal.obj [("B", JVal.obj [("y", JVal.str "w")]), ("z", JVal.str "u")])]
    [("A", JVal.obj [("B", JVal.str "v"), ("z", JVal.str "u")])]
    (.org "A") "B" "v" rfl
  exact ⟨rfl, rfl, h.2.1 ["A", "B"] "y" rfl, h.1 ["A"] "z" rfl, h.2.2⟩

theorem except_bind_ok {α β : Type} (a : α) (f : α → Except PyErr β) :
    (Except.ok a >>= f) = f a := rfl

theorem except_bind_err {α β : Type} (e2 : PyErr) (f : α → Except PyErr β) :
    ((Except.error e2 : Except PyErr α) >>= f) = .error e2 := rfl

/-- C5, amended: any non-null locator field that is not a string makes the
decorator fail with a `ValueError` naming the offending field and its
actual type; the four type checks run in field order and are reported
before containment errors; the containment check is evaluated
child-to-parent (service requires environment, environment requires
project, project requires organisation), failing fast on the first
violated rule with an error naming exactly which ancestor is missing;
validation succeeds exactly when the types and the containment rules all
hold; and every validation error is a `ValueError` that the manager
returns before any adapter work. -/
theorem C5_amended_validation (o p e s : Option PyObj) (d : JObj) (n v : String) :
    (∀ x, o = some x → x.isStr = false →
      validate_hierarchy o p e s
        = .error ⟨.valueError, "organisation must be a string, got " ++ x.typeName⟩)
    ∧ (fieldOk o = true → ∀ x, p = some x → x.isStr = false →
      validate_hierarchy o p e s
        = .error ⟨.valueError, "project must be a string, got " ++ x.typeName⟩)
    ∧ (fieldOk o = true → fieldOk p = true → ∀ x, e = some x → x.isStr = false →
      validate_hierarchy o p e s
        = .error ⟨.valueError, "environment must be a string, got " ++ x.typeName⟩)
    ∧ (fieldOk o = true → fieldOk p = true → fieldOk e = true →
      ∀ x, s = some x → x.isStr = false →
      validate_hierarchy o p e s
        = .error ⟨.valueError, "service must be a string, got " ++ x.typeName⟩)
    ∧ (fieldOk o = true → fieldOk p = true → fieldOk e = true → fieldOk s = true →
      s.isSome = true → e = none →
      validate_hierarchy o p e s
        = .error ⟨.valueError, "service requires environment to be specified"⟩)
    ∧ (fieldOk o = true → fieldOk p = true → fieldOk e = true → fieldOk s = true →
      (s.isSome = true → e.isSome = true) → e.isSome = true → p = none →
      validate_hierarchy o p e s
        = .error ⟨.valueError, "environment requires project to be specified"⟩)
    ∧ (fieldOk o = true → fieldOk p = true → fieldOk e = true → fieldOk s = true →
      (s.isSome = true → e.isSome = true) → (e.isSome = true → p.isSome = true) →
      p.isSome = true → o = none →
      validate_hierarchy o p e s
        = .error ⟨.valueError, "project requires organisation to be specified"⟩)
    ∧ (validate_hierarchy o p e s = .ok () ↔
      (fieldOk o = true ∧ fieldOk p = true ∧ fieldOk e = true ∧ fieldOk s = true
        ∧ (s.isSome = true → e.isSome = true)
        ∧ (e.isSome = true → p.isSome = true)
        ∧ (p.isSome = true → o.isSome = true)))
    ∧ (∀ err, validate_hierarchy o p e s = .error err →
      manager_set_variable d n v o p e s = .error err ∧ err.cls = .valueError) := by
  rcases o with _ | (so | io) <;> rcases p with _ | (sp | ip) <;>
    rcases e with _ | (se | ie) <;> rcases s with _ | (ss | i2) <;>
    simp [validate_hierarchy, checkType, fieldOk, PyObj.isStr, PyObj.typeName,
      manager_set_variable, except_bind_ok, except_bind_err]

/-- Witness for C5 (amended) at `organisation = "acme"`, `project = 7`:
the decorator raises `ValueError("project must be a string, got int")`. -/
theorem C5_amended_validation_witness :
    validate_hierarchy (some (.str "acme")) (some (.int 7)) none none
      = .error ⟨.valueError, "project must be a string, got int"⟩ := by
  have h := (C5_amended_validation (some (.str "acme")) (some (.int 7)) none none [] "n" "v").2.1
  exact h rfl (.int 7) rfl rfl

end EnvStore
